import Mathlib

/-!
Shallow embedding of the consistent-hash ring of `src/ring/ring.go`
(package `ring`): the ring descriptor data model, the replica-resolution
walk `getInternal` with its binary search `search`, the batched lookup
`BatchGet`, the watch-loop callback, and the ownership computation of the
`Collect` metrics export.  Machine `uint32` values are modelled as `Nat`
with explicit `% 2^32` where the Go code performs wrapping arithmetic;
Go's `float64` divisions are modelled as rationals.
-/

namespace CortexRing

/-- Operation can be Read or Write (`ring.go` lines 21-28). -/
inductive Operation
  | Read
  | Write
deriving DecidableEq, Repr

/-- Modelled from the spec: the token lifecycle enum (`lifecycle_state`,
spec section 3) is declared in a file of this repository that is not under
`src/`; the spec lists `Active`, `Leaving`, and other states passed through
unmodified, which `Other` stands for.  `ring.go` only compares a state
against `Leaving`. -/
inductive IngesterState
  | Active
  | Leaving
  | Other
deriving DecidableEq, Repr

/-- Modelled from the spec: `Token` (spec section 3) lives outside `src/`;
it carries the 32-bit ring position, the owning node id and the lifecycle
state, matching the fields `ring.go` reads (`token.Token`, `token.Ingester`,
`token.State`). -/
structure TokenDesc where
  token : Nat
  ingester : String
  state : IngesterState
deriving DecidableEq, Repr

/-- Modelled from the spec: `NodeInfo` (spec section 3) lives outside
`src/`; it carries the node identifier, an opaque address and the
last-heartbeat timestamp. -/
structure IngesterDesc where
  id : String
  addr : String
  timestamp : Nat
deriving DecidableEq, Repr

/-- The Go zero value of `IngesterDesc`, produced by a map read on an
absent key. -/
def IngesterDesc.zero : IngesterDesc := ⟨"", "", 0⟩

/-- Modelled from the spec: the ring descriptor (spec section 3) lives
outside `src/`; it is a node map (Go `map[string]IngesterDesc`, modelled as
an association list) together with the ascending token sequence. -/
structure Desc where
  ingesters : List (String × IngesterDesc)
  tokens : List TokenDesc
deriving DecidableEq, Repr

/-- Go map read `d.Ingesters[id]`: the stored value, or the zero value when
the key is absent (`ring.go` line 164). -/
def Desc.lookupIngester (d : Desc) (id : String) : IngesterDesc :=
  match d.ingesters.find? (fun p => p.1 == id) with
  | some p => p.2
  | none => IngesterDesc.zero

/-- The error of `ring.go` line 37 (`ErrEmptyRing`). -/
inductive RingError
  | emptyRing
deriving DecidableEq, Repr

/-- Never-used default for in-range `getD` reads of the token slice. -/
def defaultToken : TokenDesc := ⟨0, "", IngesterState.Active⟩

/-- Go's `sort.Search` body: binary search on `[i, j)` for the least index
at which `f` is true, as implemented in the Go standard library
(`h := i + (j-i)/2`).  The `fuel` argument only bounds the recursion
structurally; any fuel of at least `j - i` gives the Go behaviour, since
every probe shrinks the interval. -/
def sortSearchAux (f : Nat → Bool) : Nat → Nat → Nat → Nat
  | 0, i, _ => i
  | fuel + 1, i, j =>
    if i < j then
      let m := i + (j - i) / 2
      if f m then sortSearchAux f fuel i m else sortSearchAux f fuel (m + 1) j
    else i

/-- Go's `sort.Search(n, f)`. -/
def sortSearch (n : Nat) (f : Nat → Bool) : Nat := sortSearchAux f n 0 n

/-- Embeds `(*Ring).search` (`ring.go` lines 185-193): binary-search the token
slice for the first token whose hash is strictly greater than `key`, and
wrap the result to index 0 when it is the slice length. -/
def search (d : Desc) (key : Nat) : Nat :=
  let i := sortSearch d.tokens.length
    (fun x => decide (key < (d.tokens.getD x defaultToken).token))
  if i ≥ d.tokens.length then 0 else i

/-- The resolution loop of `getInternal` (`ring.go` lines 139-166).
`fuel` is the remaining iteration budget (`len(tokens) - iterations`),
`i` the current slice index before wrapping, `n` the current target
replica count, `dh` the `distinctHosts` set and `acc` the collected
ingesters.  Returns the collected ingesters, the final target count and
the unused fuel. -/
def getLoop (d : Desc) (op : Operation) :
    Nat → Nat → Nat → List String → List IngesterDesc →
    List IngesterDesc × Nat × Nat
  | 0, _, n, _, acc => (acc, n, 0)
  | fuel + 1, i, n, dh, acc =>
    if dh.length < n then
      let j := i % d.tokens.length
      let token := d.tokens.getD j defaultToken
      if dh.contains token.ingester then
        getLoop d op fuel (j + 1) n dh acc
      else
        let dh' := token.ingester :: dh
        if token.state = IngesterState.Leaving then
          if op = Operation.Write then
            getLoop d op fuel (j + 1) (n + 1) dh' acc
          else
            getLoop d op fuel (j + 1) (n + 1) dh'
              (acc ++ [d.lookupIngester token.ingester])
        else
          getLoop d op fuel (j + 1) n dh'
            (acc ++ [d.lookupIngester token.ingester])
    else (acc, n, fuel + 1)

/-- Embeds `(*Ring).getInternal` (`ring.go` lines 132-168): fail with the empty
ring error when there are no tokens, otherwise walk at most
`len(tokens)` steps from `search key` accumulating distinct hosts. -/
def getInternal (d : Desc) (key n : Nat) (op : Operation) :
    Except RingError (List IngesterDesc) :=
  if d.tokens.length = 0 then Except.error RingError.emptyRing
  else Except.ok (getLoop d op d.tokens.length (search d key) n [] []).1

/-- Embeds `(*Ring).Get` (`ring.go` lines 109-113): lock-protected `getInternal`;
the lock is concurrency-only, so the sequential meaning is `getInternal`. -/
def Get (d : Desc) (key n : Nat) (op : Operation) :
    Except RingError (List IngesterDesc) :=
  getInternal d key n op

/-- Embeds `(*Ring).BatchGet` (`ring.go` lines 117-130): resolve each key in
input order; the first error aborts the whole batch with no results. -/
def BatchGet (d : Desc) (keys : List Nat) (n : Nat) (op : Operation) :
    Except RingError (List (List IngesterDesc)) :=
  match keys with
  | [] => Except.ok []
  | k :: ks =>
    match getInternal d k n op with
    | Except.error e => Except.error e
    | Except.ok ing =>
      match BatchGet d ks n op with
      | Except.error e => Except.error e
      | Except.ok rest => Except.ok (ing :: rest)

/-- The body of the watch callback in `(*Ring).loop` (`ring.go` lines
94-105): given the current descriptor and the delivered value, return the
descriptor afterwards and whether to keep watching.  A `nil` value leaves
the descriptor untouched; a descriptor value replaces it wholesale. -/
def loopCallback (cur : Desc) (value : Option Desc) : Desc × Bool :=
  match value with
  | none => (cur, true)
  | some ringDesc => (ringDesc, true)

/-- The tokens examined by a walk that starts at slice index `i` and runs
for `cnt` iterations, wrapping modulo the token count (`ring.go` lines
143-149). -/
def visited (d : Desc) (i cnt : Nat) : List TokenDesc :=
  (List.range cnt).map (fun k => d.tokens.getD ((i + k) % d.tokens.length) defaultToken)

/-- uint32 subtraction `b - a` on values below `2^32`. -/
def sub32 (b a : Nat) : Nat := (b + 2 ^ 32 - a) % 2 ^ 32

/-- One segment size of the `Collect` ownership loop (`ring.go` lines
208-216): for the last token the distance wraps through `math.MaxUint32`
back to the first token, otherwise it is the distance to the next token.
All arithmetic is wrapping `uint32`. -/
def segList (first : Nat) : List TokenDesc → List (String × Nat)
  | [] => []
  | [t] => [(t.ingester, (sub32 (2 ^ 32 - 1) t.token + first) % 2 ^ 32)]
  | t :: t' :: rest =>
    (t.ingester, sub32 t'.token t.token) :: segList first (t' :: rest)

/-- Embeds `owned[id] = owned[id] + diff` with a Go map and `uint32`
addition (`ring.go` line 215), on an association list. -/
def addOwned (m : List (String × Nat)) (id : String) (v : Nat) :
    List (String × Nat) :=
  match m with
  | [] => [(id, v % 2 ^ 32)]
  | (k, w) :: rest =>
    if k == id then (k, (w + v) % 2 ^ 32) :: rest
    else (k, w) :: addOwned rest id v

/-- The `owned` map built by the first loop of `Collect` (`ring.go` lines
207-216): per-ingester sums of the segment sizes. -/
def collectOwned (d : Desc) : List (String × Nat) :=
  (segList ((d.tokens.getD 0 defaultToken).token) d.tokens).foldl
    (fun m p => addOwned m p.1 p.2) []

/-- The per-ingester ownership gauge values emitted by `Collect`
(`ring.go` lines 218-225): `float64(totalOwned) / float64(math.MaxUint32)`,
modelled as rationals. -/
def ownershipFractions (d : Desc) : List ℚ :=
  (collectOwned d).map (fun p => (p.2 : ℚ) / ((2 : ℚ) ^ 32 - 1))

/-- The grand total of a Go `owned` map's values. -/
def totalOwned (m : List (String × Nat)) : Nat :=
  (m.map (fun p => p.2)).sum

/-- Number of tokens in `Leaving` state in a token list. -/
def leavingCount (l : List TokenDesc) : Nat :=
  (l.filter (fun t => t.state == IngesterState.Leaving)).length

/-- The value of the `iterations` counter when the `getInternal` walk for
`key` exits: the fuel the loop consumed. -/
def walkIterations (d : Desc) (key n : Nat) (op : Operation) : Nat :=
  d.tokens.length -
    (getLoop d op d.tokens.length (search d key) n [] []).2.2

/-- The tokens examined by the `getInternal` walk for `key`. -/
def walkVisited (d : Desc) (key n : Nat) (op : Operation) : List TokenDesc :=
  visited d (search d key) (walkIterations d key n op)

/-- Decidable equality for `Except`, component-wise. -/
instance instDecidableEqExcept {ε α : Type _} [DecidableEq ε] [DecidableEq α] :
    DecidableEq (Except ε α) := fun a b =>
  match a, b with
  | Except.error e, Except.error f =>
    if h : e = f then isTrue (congrArg Except.error h)
    else isFalse (fun hc => h (Except.error.inj hc))
  | Except.error _, Except.ok _ => isFalse (fun hc => Except.noConfusion hc)
  | Except.ok _, Except.error _ => isFalse (fun hc => Except.noConfusion hc)
  | Except.ok x, Except.ok y =>
    if h : x = y then isTrue (congrArg Except.ok h)
    else isFalse (fun hc => h (Except.ok.inj hc))

/-! Concrete descriptors used by the scenario theorems and witnesses. -/

/-- Node A of the spec scenarios. -/
def ingA : IngesterDesc := ⟨"A", "addr-a", 1⟩

/-- Node B of the spec scenarios. -/
def ingB : IngesterDesc := ⟨"B", "addr-b", 2⟩

/-- Node C of the spec scenarios. -/
def ingC : IngesterDesc := ⟨"C", "addr-c", 3⟩

/-- Node D, used by the duplicate-leaving-token descriptor. -/
def ingD : IngesterDesc := ⟨"D", "addr-d", 4⟩

/-- The spec scenario descriptor: tokens 10(A, Active), 20(B, Leaving),
30(C, Active), with all three nodes present in the node map. -/
def descLeavingB : Desc :=
  ⟨[("A", ingA), ("B", ingB), ("C", ingC)],
   [⟨10, "A", IngesterState.Active⟩,
    ⟨20, "B", IngesterState.Leaving⟩,
    ⟨30, "C", IngesterState.Active⟩]⟩

/-- A descriptor in which the single leaving node B owns the two earliest
tokens of the walk. -/
def descDupLeaving : Desc :=
  ⟨[("B", ingB), ("C", ingC), ("D", ingD)],
   [⟨10, "B", IngesterState.Leaving⟩,
    ⟨20, "B", IngesterState.Leaving⟩,
    ⟨30, "C", IngesterState.Active⟩,
    ⟨40, "D", IngesterState.Active⟩]⟩

/-- A descriptor whose token at 20 references node B, absent from the node
map. -/
def descMissingB : Desc :=
  ⟨[("A", ingA)],
   [⟨10, "A", IngesterState.Active⟩, ⟨20, "B", IngesterState.Active⟩]⟩

/-! Scenario and error-handling theorems. -/

/-- C1, counterexample: on the scenario descriptor, `get(15, 1, Write)`
does not return `[C, A]` — the leaving node B consumes a distinct-host
slot, so the walk stops after C and never wraps to A. -/
theorem write_scenario_cex :
    getInternal descLeavingB 15 1 Operation.Write ≠ Except.ok [ingC, ingA] := by
  decide

/-- C1, amended: `get(5, 1, Write)` returns exactly `[A]`, and
`get(15, 1, Write)` returns exactly `[C]`: the walk starts at token 20,
adds B to the distinct-host set, inflates the target to 2, skips B for the
write, collects C, and then stops because the two distinct hosts B and C
already meet the inflated target. -/
theorem write_scenario_amended :
    getInternal descLeavingB 5 1 Operation.Write = Except.ok [ingA] ∧
    getInternal descLeavingB 15 1 Operation.Write = Except.ok [ingC] := by
  exact ⟨rfl, rfl⟩

/-- C4, counterexample: with the single leaving node B owning the two
tokens 10 and 20, the walk of `get(5, 1, Write)` visits two Leaving tokens
but raises the target replica count only once (from 1 to 2): inflation is
not per Leaving token. -/
theorem leaving_inflation_cex :
    (getLoop descDupLeaving Operation.Write descDupLeaving.tokens.length
        (search descDupLeaving 5) 1 [] []).2.1 - 1 = 1 ∧
    leavingCount (walkVisited descDupLeaving 5 1 Operation.Write) = 2 := by
  exact ⟨rfl, rfl⟩

/-- C5, counterexample: on the descriptor whose token at 20 references the
absent node B, `get(5, 2, Read)` does not skip that token — it returns the
zero-valued ingester record for it, so the result is `[A, zero]` and not
`[A]`. -/
theorem missing_node_cex :
    getInternal descMissingB 5 2 Operation.Read ≠ Except.ok [ingA] ∧
    getInternal descMissingB 5 2 Operation.Read =
      Except.ok [ingA, IngesterDesc.zero] := by
  exact ⟨by decide, rfl⟩

/-- C5, amended: a token referencing an absent node never crashes the
resolver and surfaces no error — resolution on any non-empty token list
returns a result — but the token is not skipped: it contributes the Go
zero value of the ingester record to the returned list, as the concrete
descriptor shows. -/
theorem missing_node_amended :
    (∀ (d : Desc) (key n : Nat) (op : Operation), d.tokens ≠ [] →
      ∃ res, getInternal d key n op = Except.ok res) ∧
    getInternal descMissingB 5 2 Operation.Read =
      Except.ok [ingA, IngesterDesc.zero] := by
  constructor
  · intro d key n op h
    unfold getInternal
    rw [if_neg (by simpa [List.length_eq_zero] using h)]
    exact ⟨_, rfl⟩
  · rfl

/-- Witness for the amended C5 statement at a concrete input. -/
theorem missing_node_amended_witness :
    ∃ res, getInternal descMissingB 7 1 Operation.Read = Except.ok res :=
  missing_node_amended.1 descMissingB 7 1 Operation.Read (by decide)

/-- C6: resolution returns the empty-ring error exactly when the current
descriptor has zero tokens; a non-empty token list never produces it. -/
theorem getInternal_emptyRing_iff (d : Desc) (key n : Nat) (op : Operation) :
    getInternal d key n op = Except.error RingError.emptyRing ↔
      d.tokens = [] := by
  unfold getInternal
  by_cases h : d.tokens.length = 0
  · simp [h, List.length_eq_zero.mp h]
  · rw [if_neg h]
    constructor
    · intro hc
      exact Except.noConfusion hc
    · intro hc
      exact absurd (by rw [hc]; rfl) h

/-- C9: the watch callback leaves the current descriptor completely
unchanged on a nil value (same tokens, same node map) and keeps watching;
only a delivered descriptor value replaces the current one. -/
theorem loop_nil_keeps_descriptor (cur : Desc) :
    (loopCallback cur none).1.tokens = cur.tokens ∧
    (loopCallback cur none).1.ingesters = cur.ingesters ∧
    (loopCallback cur none).2 = true ∧
    ∀ dsc : Desc, loopCallback cur (some dsc) = (dsc, true) :=
  ⟨rfl, rfl, rfl, fun _ => rfl⟩

/-- C10: a batched lookup with no keys succeeds with an empty result even
on a zero-token descriptor, for which a single lookup fails with the
empty-ring error. -/
theorem batchGet_empty_keys (d : Desc) (n : Nat) (op : Operation) (key : Nat)
    (h : d.tokens = []) :
    BatchGet d [] n op = Except.ok [] ∧
    getInternal d key n op = Except.error RingError.emptyRing := by
  refine ⟨rfl, ?_⟩
  unfold getInternal
  rw [if_pos (by rw [h]; rfl)]

/-- Witness for the empty-batch behaviour on the empty descriptor. -/
theorem batchGet_empty_keys_witness :
    BatchGet ⟨[], []⟩ [] 1 Operation.Write = Except.ok [] ∧
    getInternal ⟨[], []⟩ 0 1 Operation.Write =
      Except.error RingError.emptyRing :=
  batchGet_empty_keys ⟨[], []⟩ 1 Operation.Write 0 rfl

/-- C7: against a fixed descriptor, a successful batched lookup has the
same length and order as its keys with element i equal to the single
lookup of key i, and if any key fails to resolve the whole batch fails
with an error and returns no results. -/
theorem batchGet_matches_get (d : Desc) (keys : List Nat) (n : Nat)
    (op : Operation) :
    (∀ rs, BatchGet d keys n op = Except.ok rs →
      rs.length = keys.length ∧
      ∀ i (hi : i < keys.length) (hr : i < rs.length),
        Except.ok (rs.get ⟨i, hr⟩) =
          getInternal d (keys.get ⟨i, hi⟩) n op) ∧
    ((∃ k ∈ keys, ∃ e, getInternal d k n op = Except.error e) →
      ∃ e, BatchGet d keys n op = Except.error e) := by
  induction keys with
  | nil =>
    constructor
    · intro rs h
      have hrs : rs = [] := (Except.ok.inj h).symm
      subst hrs
      exact ⟨rfl, fun i hi _ => absurd hi (by simp)⟩
    · rintro ⟨k, hk, _⟩
      exact absurd hk (by simp)
  | cons k ks ih =>
    constructor
    · intro rs h
      unfold BatchGet at h
      cases hg : getInternal d k n op with
      | error e =>
        rw [hg] at h
        exact Except.noConfusion h
      | ok ing =>
        rw [hg] at h
        cases hb : BatchGet d ks n op with
        | error e =>
          rw [hb] at h
          exact Except.noConfusion h
        | ok rest =>
          rw [hb] at h
          have hrs : rs = ing :: rest := (Except.ok.inj h).symm
          subst hrs
          obtain ⟨hlen, helem⟩ := ih.1 rest hb
          refine ⟨by simp [hlen], ?_⟩
          intro i hi hr
          cases i with
          | zero => exact hg.symm
          | succ j =>
            have hj : j < ks.length := by simpa using hi
            have hjr : j < rest.length := by simpa using hr
            simpa using helem j hj hjr
    · rintro ⟨k2, hk2, e, he⟩
      rcases List.mem_cons.mp hk2 with hEq | hMem
      · subst hEq
        refine ⟨e, ?_⟩
        unfold BatchGet
        rw [he]
      · obtain ⟨e2, hb⟩ := ih.2 ⟨k2, hMem, e, he⟩
        unfold BatchGet
        cases hg : getInternal d k n op with
        | error e3 => exact ⟨e3, rfl⟩
        | ok ing =>
          rw [hb]
          exact ⟨e2, rfl⟩

/-- Witness for the batched-lookup equivalence at a concrete input. -/
theorem batchGet_matches_get_witness :
    ([[ingA], [ingC]] : List (List IngesterDesc)).length =
      ([5, 15] : List Nat).length ∧
    ∀ i (hi : i < ([5, 15] : List Nat).length)
      (hr : i < ([[ingA], [ingC]] : List (List IngesterDesc)).length),
      Except.ok (([[ingA], [ingC]] : List (List IngesterDesc)).get ⟨i, hr⟩) =
        getInternal descLeavingB (([5, 15] : List Nat).get ⟨i, hi⟩) 1
          Operation.Write :=
  (batchGet_matches_get descLeavingB [5, 15] 1 Operation.Write).1
    [[ingA], [ingC]] (by rfl)

/-! Correctness of the binary search. -/

/-- A `getD` read below the length is a `get`. -/
lemma getD_eq_get {α : Type _} :
    ∀ (l : List α) (j : Nat) (dflt : α) (h : j < l.length),
      l.getD j dflt = l.get ⟨j, h⟩ := by
  intro l
  induction l with
  | nil =>
    intro j dflt h
    exact absurd h (by simp)
  | cons a t ih =>
    intro j dflt h
    cases j with
    | zero => simp [List.getD_cons_zero]
    | succ k =>
      rw [List.getD_cons_succ]
      exact ih k dflt (by simpa using h)

/-- A `getD` read below the length is a member of the list. -/
lemma getD_mem {α : Type _} :
    ∀ (l : List α) (j : Nat) (dflt : α), j < l.length → l.getD j dflt ∈ l := by
  intro l
  induction l with
  | nil =>
    intro j dflt h
    exact absurd h (by simp)
  | cons a t ih =>
    intro j dflt h
    cases j with
    | zero => simp [List.getD_cons_zero]
    | succ k =>
      rw [List.getD_cons_succ]
      exact List.mem_cons_of_mem a (ih k dflt (by simpa using h))

/-- The binary search stays inside its interval. -/
lemma sortSearchAux_bounds (f : Nat → Bool) :
    ∀ (fuel i j : Nat), i ≤ j →
      i ≤ sortSearchAux f fuel i j ∧ sortSearchAux f fuel i j ≤ j := by
  intro fuel
  induction fuel with
  | zero =>
    intro i j hij
    exact ⟨le_refl i, hij⟩
  | succ fuel ih =>
    intro i j hij
    unfold sortSearchAux
    by_cases h : i < j
    · rw [if_pos h]
      by_cases hf : f (i + (j - i) / 2) = true
      · rw [if_pos hf]
        obtain ⟨h1, h2⟩ := ih i (i + (j - i) / 2) (by omega)
        exact ⟨h1, by omega⟩
      · rw [if_neg hf]
        obtain ⟨h1, h2⟩ := ih (i + (j - i) / 2 + 1) j (by omega)
        exact ⟨by omega, h2⟩
    · rw [if_neg h]
      exact ⟨le_refl i, hij⟩

/-- With enough fuel and a predicate monotone below `n`, the binary search
lands on the boundary: everything below the result is false and the result
itself, when inside the range, is true. -/
lemma sortSearchAux_spec (f : Nat → Bool) (n : Nat)
    (hmono : ∀ a b, a ≤ b → b < n → f a = true → f b = true) :
    ∀ (fuel i j : Nat), j - i ≤ fuel → i ≤ j → j ≤ n →
      (∀ k, k < i → f k = false) →
      (∀ k, j ≤ k → k < n → f k = true) →
      (∀ k, k < sortSearchAux f fuel i j → f k = false) ∧
      (sortSearchAux f fuel i j < n → f (sortSearchAux f fuel i j) = true) := by
  intro fuel
  induction fuel with
  | zero =>
    intro i j hfuel hij hjn hbelow habove
    refine ⟨fun k hk => hbelow k hk, fun hn => habove i (by omega) hn⟩
  | succ fuel ih =>
    intro i j hfuel hij hjn hbelow habove
    unfold sortSearchAux
    by_cases h : i < j
    · rw [if_pos h]
      by_cases hf : f (i + (j - i) / 2) = true
      · rw [if_pos hf]
        refine ih i (i + (j - i) / 2) (by omega) (by omega) (by omega) hbelow ?_
        intro k hk hkn
        exact hmono _ k hk hkn hf
      · rw [if_neg hf]
        refine ih (i + (j - i) / 2 + 1) j (by omega) (by omega) hjn ?_ habove
        intro k hk
        by_cases hki : k < i
        · exact hbelow k hki
        · cases hfk : f k with
          | false => rfl
          | true => exact absurd (hmono k (i + (j - i) / 2) (by omega) (by omega) hfk) hf
    · rw [if_neg h]
      exact ⟨fun k hk => hbelow k hk, fun hn => habove i (by omega) hn⟩

/-- The first index at which a predicate holds, as computed by `findIdx`:
it is at most the length, everything before it fails the predicate, and it
satisfies the predicate when it is inside the list. -/
lemma findIdx_facts {α : Type _} (p : α → Bool) (dflt : α) :
    ∀ l : List α,
      l.findIdx p ≤ l.length ∧
      (∀ k, k < l.findIdx p → p (l.getD k dflt) = false) ∧
      (l.findIdx p < l.length → p (l.getD (l.findIdx p) dflt) = true) := by
  intro l
  induction l with
  | nil =>
    exact ⟨by simp, fun k hk => absurd hk (by simp), fun h => absurd h (by simp)⟩
  | cons a t ih =>
    rw [List.findIdx_cons]
    cases hpa : p a with
    | true =>
      simp only [cond_true]
      refine ⟨by simp, fun k hk => absurd hk (by omega), fun _ => ?_⟩
      simpa [List.getD_cons_zero] using hpa
    | false =>
      simp only [cond_false]
      obtain ⟨h1, h2, h3⟩ := ih
      refine ⟨by simpa using h1, ?_, ?_⟩
      · intro k hk
        cases k with
        | zero => simpa [List.getD_cons_zero] using hpa
        | succ k2 =>
          rw [List.getD_cons_succ]
          exact h2 k2 (by omega)
      · intro hlt
        rw [List.getD_cons_succ]
        exact h3 (by simpa using hlt)

/-- C3: on a non-empty ascending token list, the start index chosen by the
ring search is the index of the first token whose hash is strictly greater
than the key, and is 0 when no token hash is strictly greater. -/
theorem search_first_greater (d : Desc) (key : Nat)
    (_hne : d.tokens ≠ [])
    (hsorted : d.tokens.Pairwise (fun a b => a.token ≤ b.token)) :
    search d key =
      if d.tokens.findIdx (fun t => decide (key < t.token)) <
          d.tokens.length
      then d.tokens.findIdx (fun t => decide (key < t.token))
      else 0 := by
  have hmonotok : ∀ a b : Nat, a ≤ b → b < d.tokens.length →
      (d.tokens.getD a defaultToken).token ≤
        (d.tokens.getD b defaultToken).token := by
    intro a b hab hb
    rcases Nat.eq_or_lt_of_le hab with hEq | hLt
    · rw [hEq]
    · have hp := List.pairwise_iff_get.mp hsorted ⟨a, by omega⟩ ⟨b, hb⟩ hLt
      rw [getD_eq_get d.tokens a defaultToken (by omega),
        getD_eq_get d.tokens b defaultToken hb]
      exact hp
  have hmono : ∀ a b : Nat, a ≤ b → b < d.tokens.length →
      (fun x => decide (key < (d.tokens.getD x defaultToken).token)) a = true →
      (fun x => decide (key < (d.tokens.getD x defaultToken).token)) b = true := by
    intro a b hab hb hfa
    have h1 : key < (d.tokens.getD a defaultToken).token := by
      simpa using hfa
    have h2 := hmonotok a b hab hb
    simp only [decide_eq_true_eq]
    omega
  have hb := sortSearchAux_bounds
    (fun x => decide (key < (d.tokens.getD x defaultToken).token))
    d.tokens.length 0 d.tokens.length (by omega)
  have hs := sortSearchAux_spec
    (fun x => decide (key < (d.tokens.getD x defaultToken).token))
    d.tokens.length hmono d.tokens.length 0 d.tokens.length
    (by omega) (by omega) (le_refl _)
    (fun k hk => absurd hk (by omega))
    (fun k hk hkn => absurd hkn (by omega))
  obtain ⟨hfi1, hfi2, hfi3⟩ :=
    findIdx_facts (fun t => decide (key < t.token)) defaultToken d.tokens
  have hpf : ∀ k, (fun t => decide (key < t.token))
      (d.tokens.getD k defaultToken) =
      (fun x => decide (key < (d.tokens.getD x defaultToken).token)) k :=
    fun k => rfl
  have hss : sortSearch d.tokens.length
      (fun x => decide (key < (d.tokens.getD x defaultToken).token)) =
      sortSearchAux (fun x => decide (key < (d.tokens.getD x defaultToken).token))
        d.tokens.length 0 d.tokens.length := rfl
  have hEq : sortSearch d.tokens.length
      (fun x => decide (key < (d.tokens.getD x defaultToken).token)) =
      d.tokens.findIdx (fun t => decide (key < t.token)) := by
    rw [hss]
    rcases Nat.lt_trichotomy
      (sortSearchAux (fun x => decide (key < (d.tokens.getD x defaultToken).token))
        d.tokens.length 0 d.tokens.length)
      (d.tokens.findIdx (fun t => decide (key < t.token))) with hlt | hmid | hgt
    · have h1 : decide (key <
          (d.tokens.getD
            (sortSearchAux
              (fun x => decide (key < (d.tokens.getD x defaultToken).token))
              d.tokens.length 0 d.tokens.length) defaultToken).token) = true :=
        hs.2 (by omega)
      have h3 := hfi2 _ hlt
      rw [h1] at h3
      exact absurd h3 (by simp)
    · exact hmid
    · have h1 : d.tokens.findIdx (fun t => decide (key < t.token)) <
          d.tokens.length := by omega
      have h2 := hfi3 h1
      have h3 : decide (key <
          (d.tokens.getD (d.tokens.findIdx (fun t => decide (key < t.token)))
            defaultToken).token) = false :=
        hs.1 _ hgt
      rw [h2] at h3
      exact absurd h3 (by simp)
  unfold search
  rw [hEq]
  by_cases hc : d.tokens.findIdx (fun t => decide (key < t.token)) <
      d.tokens.length
  · rw [if_pos hc, if_neg (by omega)]
  · rw [if_neg hc, if_pos (by omega)]

/-- Witness for the search characterisation, at the wrap-around key 35 of
the scenario descriptor. -/
theorem search_first_greater_witness :
    search descLeavingB 35 =
      if descLeavingB.tokens.findIdx (fun t => decide (35 < t.token)) <
          descLeavingB.tokens.length
      then descLeavingB.tokens.findIdx (fun t => decide (35 < t.token))
      else 0 :=
  search_first_greater descLeavingB 35 (by decide) (by decide)

/-! Invariants of the resolution walk. -/

/-- Index arithmetic for one step of the wrapped walk. -/
lemma add_mod_rotate (i k len : Nat) :
    (i + (k + 1)) % len = (i % len + 1 + k) % len := by
  rw [show i + (k + 1) = i + (1 + k) from by omega,
    show i % len + 1 + k = i % len + (1 + k) from by omega,
    Nat.add_mod i (1 + k), Nat.add_mod (i % len) (1 + k),
    Nat.mod_mod_of_dvd i (dvd_refl len)]

/-- A walk of zero iterations visits nothing. -/
lemma visited_zero (d : Desc) (i : Nat) : visited d i 0 = [] := rfl

/-- Peeling one iteration off the visited-token list. -/
lemma visited_succ (d : Desc) (i c : Nat) :
    visited d i (c + 1) =
      d.tokens.getD (i % d.tokens.length) defaultToken ::
        visited d (i % d.tokens.length + 1) c := by
  simp only [visited, List.range_succ_eq_map, List.map_cons, List.map_map,
    Nat.add_zero]
  congr 1
  apply List.map_congr_left
  intro k _
  show d.tokens.getD ((i + (k + 1)) % d.tokens.length) defaultToken = _
  rw [add_mod_rotate]

/-- Leaving count over a cons with a Leaving head. -/
lemma leavingCount_cons_leaving (t : TokenDesc) (l : List TokenDesc)
    (h : t.state = IngesterState.Leaving) :
    leavingCount (t :: l) = leavingCount l + 1 := by
  unfold leavingCount
  rw [List.filter_cons, if_pos (by simp [h])]
  simp

/-- The leaving count of a tail bounds the leaving count of the list. -/
lemma leavingCount_cons_le (t : TokenDesc) (l : List TokenDesc) :
    leavingCount l ≤ leavingCount (t :: l) := by
  unfold leavingCount
  rw [List.filter_cons]
  by_cases h : (t.state == IngesterState.Leaving) = true
  · rw [if_pos h]; simp
  · rw [if_neg h]

/-- A duplicate-free list of members of `m` is no longer than `m.dedup`. -/
lemma nodup_subset_dedup (l m : List String) (hn : l.Nodup)
    (hsub : ∀ x ∈ l, x ∈ m) : l.length ≤ m.dedup.length :=
  (List.subperm_of_subset hn
    (fun x hx => List.mem_dedup.mpr (hsub x hx))).length_le

/-- Master invariant of the resolution walk: under a well-formed node map,
the collected ingesters carry pairwise-distinct node ids, never outnumber
the final (inflated) target or the distinct node ids of the token list,
the target only grows, each unit of growth is matched by a Leaving token
among the visited tokens, and the total growth plus the distinct-host
count never exceeds the number of distinct node ids in the ring. -/
lemma getLoop_inv (d : Desc) (op : Operation)
    (hwf : ∀ t ∈ d.tokens, (d.lookupIngester t.ingester).id = t.ingester)
    (hne : d.tokens ≠ []) :
    ∀ (fuel i n : Nat) (dh : List String) (acc : List IngesterDesc)
      (res : List IngesterDesc) (nF fl : Nat),
      getLoop d op fuel i n dh acc = (res, nF, fl) →
      dh.Nodup →
      (∀ x ∈ dh, x ∈ d.tokens.map (fun t => t.ingester)) →
      (acc.map (fun g => g.id)).Nodup →
      (∀ y ∈ acc.map (fun g => g.id), y ∈ dh) →
      acc.length ≤ dh.length →
      dh.length ≤ n →
      ((res.map (fun g => g.id)).Nodup ∧
       res.length ≤ nF ∧
       n ≤ nF ∧
       fl ≤ fuel ∧
       nF - n ≤ leavingCount (visited d i (fuel - fl)) ∧
       nF - n + dh.length ≤
         ((d.tokens.map (fun t => t.ingester)).dedup).length ∧
       res.length ≤ ((d.tokens.map (fun t => t.ingester)).dedup).length) := by
  have hpos : 0 < d.tokens.length := List.length_pos.mpr hne
  intro fuel
  induction fuel with
  | zero =>
    intro i n dh acc res nF fl heq hdhN hdhS haccN haccS hlen hdn
    cases heq
    refine ⟨haccN, le_trans hlen hdn, le_refl n, le_refl 0, by simp, ?_, ?_⟩
    · simpa using nodup_subset_dedup dh _ hdhN hdhS
    · exact le_trans hlen (nodup_subset_dedup dh _ hdhN hdhS)
  | succ fuel ih =>
    intro i n dh acc res nF fl heq hdhN hdhS haccN haccS hlen hdn
    have hjlt : i % d.tokens.length < d.tokens.length := Nat.mod_lt i hpos
    have htokmem : d.tokens.getD (i % d.tokens.length) defaultToken ∈ d.tokens :=
      getD_mem d.tokens (i % d.tokens.length) defaultToken hjlt
    have hingmem :
        (d.tokens.getD (i % d.tokens.length) defaultToken).ingester ∈
          d.tokens.map (fun t => t.ingester) :=
      List.mem_map_of_mem (fun t => t.ingester) htokmem
    by_cases hcond : dh.length < n
    · simp only [getLoop, if_pos hcond] at heq
      by_cases hmemdh :
          dh.contains (d.tokens.getD (i % d.tokens.length) defaultToken).ingester = true
      · -- already-collected host: skipped before any lifecycle handling
        rw [if_pos hmemdh] at heq
        obtain ⟨c1, c2, c3, c4, c5, c6, c7⟩ :=
          ih (i % d.tokens.length + 1) n dh acc res nF fl heq
            hdhN hdhS haccN haccS hlen hdn
        refine ⟨c1, c2, c3, by omega, ?_, c6, c7⟩
        have hstep : fuel + 1 - fl = (fuel - fl) + 1 := by omega
        rw [hstep, visited_succ]
        exact le_trans c5 (leavingCount_cons_le _ _)
      · rw [if_neg hmemdh] at heq
        have hnotin :
            (d.tokens.getD (i % d.tokens.length) defaultToken).ingester ∉ dh := by
          simpa using hmemdh
        have hdhN2 :
            ((d.tokens.getD (i % d.tokens.length) defaultToken).ingester :: dh).Nodup :=
          List.nodup_cons.mpr ⟨hnotin, hdhN⟩
        have hdhS2 : ∀ x ∈
            (d.tokens.getD (i % d.tokens.length) defaultToken).ingester :: dh,
            x ∈ d.tokens.map (fun t => t.ingester) := by
          intro x hx
          rcases List.mem_cons.mp hx with hx1 | hx2
          · rw [hx1]; exact hingmem
          · exact hdhS x hx2
        have haccS2 : ∀ y ∈ acc.map (fun g => g.id),
            y ∈ (d.tokens.getD (i % d.tokens.length) defaultToken).ingester :: dh :=
          fun y hy => List.mem_cons_of_mem _ (haccS y hy)
        have hid :
            (d.lookupIngester
              (d.tokens.getD (i % d.tokens.length) defaultToken).ingester).id =
              (d.tokens.getD (i % d.tokens.length) defaultToken).ingester :=
          hwf _ htokmem
        have haccN2 :
            ((acc ++ [d.lookupIngester
              (d.tokens.getD (i % d.tokens.length) defaultToken).ingester]).map
                (fun g => g.id)).Nodup := by
          rw [List.map_append]
          refine List.nodup_append.mpr ⟨haccN, by simp, ?_⟩
          intro y hy hy2
          simp only [List.map_cons, List.map_nil, List.mem_singleton] at hy2
          rw [hid] at hy2
          exact hnotin (hy2 ▸ haccS y hy)
        have haccS3 : ∀ y ∈ (acc ++ [d.lookupIngester
              (d.tokens.getD (i % d.tokens.length) defaultToken).ingester]).map
                (fun g => g.id),
            y ∈ (d.tokens.getD (i % d.tokens.length) defaultToken).ingester :: dh := by
          intro y hy
          rw [List.map_append] at hy
          rcases List.mem_append.mp hy with hy1 | hy2
          · exact List.mem_cons_of_mem _ (haccS y hy1)
          · simp only [List.map_cons, List.map_nil, List.mem_singleton] at hy2
            rw [hid] at hy2
            rw [hy2]
            exact List.mem_cons_self _ _
        have hlen2 : (acc ++ [d.lookupIngester
              (d.tokens.getD (i % d.tokens.length) defaultToken).ingester]).length ≤
            ((d.tokens.getD (i % d.tokens.length) defaultToken).ingester :: dh).length := by
          simp only [List.length_append, List.length_cons, List.length_nil]
          omega
        by_cases hstate :
            (d.tokens.getD (i % d.tokens.length) defaultToken).state =
              IngesterState.Leaving
      -- continued in the branches below
        · rw [if_pos hstate] at heq
          by_cases hop : op = Operation.Write
          · rw [if_pos hop] at heq
            obtain ⟨c1, c2, c3, c4, c5, c6, c7⟩ :=
              ih (i % d.tokens.length + 1) (n + 1)
                ((d.tokens.getD (i % d.tokens.length) defaultToken).ingester :: dh)
                acc res nF fl heq hdhN2 hdhS2 haccN haccS2
                (by simp only [List.length_cons]; omega)
                (by simp only [List.length_cons]; omega)
            refine ⟨c1, c2, by omega, by omega, ?_, ?_, c7⟩
            · have hstep : fuel + 1 - fl = (fuel - fl) + 1 := by omega
              rw [hstep, visited_succ,
                leavingCount_cons_leaving _ _ hstate]
              omega
            · simp only [List.length_cons] at c6
              omega
          · rw [if_neg hop] at heq
            obtain ⟨c1, c2, c3, c4, c5, c6, c7⟩ :=
              ih (i % d.tokens.length + 1) (n + 1)
                ((d.tokens.getD (i % d.tokens.length) defaultToken).ingester :: dh)
                (acc ++ [d.lookupIngester
                  (d.tokens.getD (i % d.tokens.length) defaultToken).ingester])
                res nF fl heq hdhN2 hdhS2 haccN2 haccS3 hlen2
                (by simp only [List.length_cons]; omega)
            refine ⟨c1, c2, by omega, by omega, ?_, ?_, c7⟩
            · have hstep : fuel + 1 - fl = (fuel - fl) + 1 := by omega
              rw [hstep, visited_succ,
                leavingCount_cons_leaving _ _ hstate]
              omega
            · simp only [List.length_cons] at c6
              omega
        · rw [if_neg hstate] at heq
          obtain ⟨c1, c2, c3, c4, c5, c6, c7⟩ :=
            ih (i % d.tokens.length + 1) n
              ((d.tokens.getD (i % d.tokens.length) defaultToken).ingester :: dh)
              (acc ++ [d.lookupIngester
                (d.tokens.getD (i % d.tokens.length) defaultToken).ingester])
              res nF fl heq hdhN2 hdhS2 haccN2 haccS3 hlen2
              (by simp only [List.length_cons]; omega)
          refine ⟨c1, c2, c3, by omega, ?_, ?_, c7⟩
          · have hstep : fuel + 1 - fl = (fuel - fl) + 1 := by omega
            rw [hstep, visited_succ]
            exact le_trans c5 (leavingCount_cons_le _ _)
          · simp only [List.length_cons] at c6
            omega
    · simp only [getLoop, if_neg hcond] at heq
      cases heq
      refine ⟨haccN, le_trans hlen hdn, le_refl n, le_refl _, by simp, ?_, ?_⟩
      · simpa using nodup_subset_dedup dh _ hdhN hdhS
      · exact le_trans hlen (nodup_subset_dedup dh _ hdhN hdhS)

/-- C2: for a well-formed non-empty descriptor, a Read resolution returns
pairwise-distinct node ids, at most `n` plus the number of Leaving tokens
encountered during the walk, and never more nodes than there are distinct
node ids in the token list. -/
theorem getInternal_read_distinct (d : Desc) (key n : Nat)
    (hne : d.tokens ≠ [])
    (hwf : ∀ t ∈ d.tokens, (d.lookupIngester t.ingester).id = t.ingester)
    (res : List IngesterDesc)
    (hres : getInternal d key n Operation.Read = Except.ok res) :
    (res.map (fun g => g.id)).Nodup ∧
    res.length ≤ n + leavingCount (walkVisited d key n Operation.Read) ∧
    res.length ≤ ((d.tokens.map (fun t => t.ingester)).dedup).length := by
  have hlen0 : ¬ d.tokens.length = 0 := by
    simpa [List.length_eq_zero] using hne
  unfold getInternal at hres
  rw [if_neg hlen0] at hres
  have hres2 :
      (getLoop d Operation.Read d.tokens.length (search d key) n [] []).1 = res :=
    Except.ok.inj hres
  obtain ⟨c1, c2, c3, c4, c5, c6, c7⟩ :=
    getLoop_inv d Operation.Read hwf hne d.tokens.length (search d key) n [] []
      (getLoop d Operation.Read d.tokens.length (search d key) n [] []).1
      (getLoop d Operation.Read d.tokens.length (search d key) n [] []).2.1
      (getLoop d Operation.Read d.tokens.length (search d key) n [] []).2.2
      rfl List.nodup_nil (by simp) (by simp) (by simp) (by simp) (by simp)
  rw [hres2] at c1 c2 c7
  refine ⟨c1, ?_, c7⟩
  unfold walkVisited walkIterations
  omega

/-- Witness for the Read-walk properties at a concrete input. -/
theorem getInternal_read_distinct_witness :
    (([ingB, ingC] : List IngesterDesc).map (fun g => g.id)).Nodup ∧
    ([ingB, ingC] : List IngesterDesc).length ≤
      1 + leavingCount (walkVisited descLeavingB 15 1 Operation.Read) ∧
    ([ingB, ingC] : List IngesterDesc).length ≤
      ((descLeavingB.tokens.map (fun t => t.ingester)).dedup).length :=
  getInternal_read_distinct descLeavingB 15 1 (by decide) (by decide)
    [ingB, ingC] (by rfl)

/-- C4, amended: the walk raises the target replica count only when a
Leaving token introduces a node not yet in the distinct-host set, so the
total inflation of one walk never exceeds the number of distinct node ids
in the token list — a single leaving node owning several visited tokens
inflates the target only at its first encountered token. -/
theorem leaving_inflation_per_node (d : Desc) (key n : Nat) (op : Operation)
    (hne : d.tokens ≠ [])
    (hwf : ∀ t ∈ d.tokens, (d.lookupIngester t.ingester).id = t.ingester) :
    (getLoop d op d.tokens.length (search d key) n [] []).2.1 - n ≤
      ((d.tokens.map (fun t => t.ingester)).dedup).length := by
  obtain ⟨_, _, _, _, _, c6, _⟩ :=
    getLoop_inv d op hwf hne d.tokens.length (search d key) n [] []
      (getLoop d op d.tokens.length (search d key) n [] []).1
      (getLoop d op d.tokens.length (search d key) n [] []).2.1
      (getLoop d op d.tokens.length (search d key) n [] []).2.2
      rfl List.nodup_nil (by simp) (by simp) (by simp) (by simp) (by simp)
  simpa using c6

/-- Witness for the inflation bound at the duplicate-leaving descriptor. -/
theorem leaving_inflation_per_node_witness :
    (getLoop descDupLeaving Operation.Write descDupLeaving.tokens.length
        (search descDupLeaving 5) 1 [] []).2.1 - 1 ≤
      ((descDupLeaving.tokens.map (fun t => t.ingester)).dedup).length :=
  leaving_inflation_per_node descDupLeaving 5 1 Operation.Write
    (by decide) (by decide)

/-! The ownership computation of the metrics export. -/

/-- On in-range operands the wrapping uint32 subtraction is exact. -/
lemma sub32_exact (b a : Nat) (h1 : a ≤ b) (h2 : b < 2 ^ 32) :
    sub32 b a = b - a := by
  unfold sub32
  have hp : (2 : Nat) ^ 32 = 4294967296 := by norm_num
  rw [hp] at h2 ⊢
  omega

/-- Telescoping sum of the ring segments: for a strictly ascending
in-range token list, the segment sizes add up to the whole hash space
minus the gap between the wrap anchor `first` and the head token. -/
lemma segList_sum (first : Nat) :
    ∀ ts : List TokenDesc, ts ≠ [] →
      List.Chain' (fun a b => a.token < b.token) ts →
      (∀ t ∈ ts, t.token < 2 ^ 32) →
      first ≤ (ts.getD 0 defaultToken).token →
      ((segList first ts).map (fun p => p.2)).sum =
        (2 ^ 32 - 1) - (ts.getD 0 defaultToken).token + first := by
  intro ts
  induction ts with
  | nil =>
    intro h
    exact absurd rfl h
  | cons t ts ih =>
    intro _ hchain hbound hfirst
    have hp : (2 : Nat) ^ 32 = 4294967296 := by norm_num
    cases ts with
    | nil =>
      simp only [segList, List.map_cons, List.map_nil, List.sum_cons,
        List.sum_nil, List.getD_cons_zero]
      have hb : t.token < 2 ^ 32 := hbound t (by simp)
      rw [sub32_exact _ _ (by omega) (by omega)]
      simp only [List.getD_cons_zero] at hfirst
      rw [hp] at hb ⊢
      omega
    | cons t' rest =>
      simp only [segList, List.map_cons, List.sum_cons]
      have hlt : t.token < t'.token := (List.chain'_cons.mp hchain).1
      have hb : t.token < 2 ^ 32 := hbound t (by simp)
      have hb' : t'.token < 2 ^ 32 := hbound t' (by simp [List.mem_cons])
      simp only [List.getD_cons_zero] at hfirst ⊢
      rw [sub32_exact _ _ (by omega) (by omega)]
      rw [ih (by simp) (List.chain'_cons.mp hchain).2
        (fun x hx => hbound x (List.mem_cons_of_mem _ hx))
        (by simp only [List.getD_cons_zero]; omega)]
      simp only [List.getD_cons_zero]
      rw [hp] at hb hb' ⊢
      omega

/-- Adding a segment to the owned map raises its grand total by the
segment size, as long as the total stays inside uint32 range. -/
lemma totalOwned_addOwned :
    ∀ (m : List (String × Nat)) (id : String) (v : Nat),
      totalOwned m + v < 2 ^ 32 →
      totalOwned (addOwned m id v) = totalOwned m + v := by
  intro m
  induction m with
  | nil =>
    intro id v h
    simp only [totalOwned, addOwned, List.map_cons, List.map_nil,
      List.sum_cons, List.sum_nil] at h ⊢
    have hv : v % 2 ^ 32 = v := Nat.mod_eq_of_lt (by omega)
    omega
  | cons p rest ih =>
    intro id v h
    obtain ⟨k, w⟩ := p
    simp only [addOwned]
    by_cases hk : (k == id) = true
    · rw [if_pos hk]
      simp only [totalOwned, List.map_cons, List.sum_cons] at h ⊢
      have hw : (w + v) % 2 ^ 32 = w + v := Nat.mod_eq_of_lt (by omega)
      omega
    · rw [if_neg hk]
      simp only [totalOwned, List.map_cons, List.sum_cons] at h ⊢
      have hrest := ih id v (by simp only [totalOwned]; omega)
      simp only [totalOwned] at hrest
      omega

/-- Folding segments into the owned map totals their sum, as long as that
sum stays inside uint32 range. -/
lemma totalOwned_foldl :
    ∀ (l m : List (String × Nat)),
      totalOwned m + (l.map (fun p => p.2)).sum < 2 ^ 32 →
      totalOwned (l.foldl (fun m2 p => addOwned m2 p.1 p.2) m) =
        totalOwned m + (l.map (fun p => p.2)).sum := by
  intro l
  induction l with
  | nil =>
    intro m h
    simp
  | cons p l ih =>
    intro m h
    simp only [List.foldl_cons, List.map_cons, List.sum_cons] at h ⊢
    have h1 := totalOwned_addOwned m p.1 p.2 (by omega)
    rw [ih (addOwned m p.1 p.2) (by rw [h1]; omega), h1]
    omega

/-- A sum of per-entry fractions with a common denominator is the total
over the denominator. -/
lemma sum_map_div (m : List (String × Nat)) (c : ℚ) :
    (m.map (fun p => (p.2 : ℚ) / c)).sum = (totalOwned m : ℚ) / c := by
  induction m with
  | nil => simp [totalOwned]
  | cons p rest ih =>
    simp only [List.map_cons, List.sum_cons, totalOwned] at ih ⊢
    rw [ih]
    push_cast
    rw [add_div]

/-- C8: on a non-empty strictly ascending in-range token list, the
per-node ownership fractions exported by the metrics collection sum to
exactly 1. -/
theorem collect_ownership_sum (d : Desc)
    (hne : d.tokens ≠ [])
    (hchain : List.Chain' (fun a b => a.token < b.token) d.tokens)
    (hbound : ∀ t ∈ d.tokens, t.token < 2 ^ 32) :
    (ownershipFractions d).sum = 1 := by
  have hpos : 0 < d.tokens.length := List.length_pos.mpr hne
  have hh : (d.tokens.getD 0 defaultToken).token < 2 ^ 32 :=
    hbound _ (getD_mem _ _ _ hpos)
  have hsum : ((segList ((d.tokens.getD 0 defaultToken).token)
      d.tokens).map (fun p => p.2)).sum = 2 ^ 32 - 1 := by
    rw [segList_sum _ d.tokens hne hchain hbound (le_refl _)]
    omega
  have htot : totalOwned (collectOwned d) = 2 ^ 32 - 1 := by
    unfold collectOwned
    rw [totalOwned_foldl _ []
      (by simp only [totalOwned, List.map_nil, List.sum_nil, Nat.zero_add,
        hsum]; omega)]
    simp only [totalOwned, List.map_nil, List.sum_nil, Nat.zero_add] at hsum ⊢
    exact hsum
  unfold ownershipFractions
  rw [sum_map_div, htot]
  have hcast : ((2 ^ 32 - 1 : ℕ) : ℚ) = (2 : ℚ) ^ 32 - 1 := by norm_num
  rw [hcast]
  exact div_self (by norm_num)

/-- Witness for the ownership sum at the scenario descriptor. -/
theorem collect_ownership_sum_witness :
    (ownershipFractions descLeavingB).sum = 1 :=
  collect_ownership_sum descLeavingB (by decide)
    (List.Chain.cons (by decide) (List.Chain.cons (by decide) List.Chain.nil))
    (by decide)

end CortexRing
